import Mathlib

/-!
Shallow embedding of the `prism` ReferenceGraph (src/src/graph/native/graph.h and
src/src/graph/native/graph.cc): an in-memory index of code symbols, the references
between them, and the files that define them, together with two derived adjacency
indices (outgoing reference ids per source symbol, incoming reference ids per
target symbol).

C++ `std::unordered_map<std::string, T>` is modelled as an association list
`List (String × T)` with insert-or-assign, erase and find; `std::unordered_set`
as a duplicate-free `List String`.  Iteration order of an unordered map is
unspecified in C++, so the list order carries no meaning beyond giving the scans
(`getAllSymbols`, `findUnusedSymbols`, ...) a definite sequence; none of the
properties proved below depends on that order.
-/

namespace Prism

/-- Association-list lookup, the model of `std::unordered_map::find`. -/
def mapFind? {α : Type} (m : List (String × α)) (k : String) : Option α :=
  match m with
  | [] => none
  | (k', v) :: rest => if k' = k then some v else mapFind? rest k

/-- Insert-or-assign, the model of `m[k] = v`: replace the value at an existing
key in place, otherwise append a fresh entry. -/
def mapInsert {α : Type} (m : List (String × α)) (k : String) (v : α) : List (String × α) :=
  match m with
  | [] => [(k, v)]
  | (k', v') :: rest => if k' = k then (k, v) :: rest else (k', v') :: mapInsert rest k v

/-- Erase the entry at key `k`, the model of `std::unordered_map::erase`. -/
def mapErase {α : Type} (m : List (String × α)) (k : String) : List (String × α) :=
  match m with
  | [] => []
  | (k', v') :: rest => if k' = k then rest else (k', v') :: mapErase rest k

/-- A code symbol (struct `Symbol` in graph.h); C++ default construction gives
empty strings, zero and false, so every field carries that default. -/
structure Symbol where
  id : String := ""
  name : String := ""
  type : String := ""
  filePath : String := ""
  line : Int := 0
  column : Int := 0
  className : String := ""
  isExported : Bool := false
  isStatic : Bool := false
deriving DecidableEq

/-- A directed reference between two symbols (struct `Reference` in graph.h). -/
structure Reference where
  id : String := ""
  fromSymbolId : String := ""
  toSymbolId : String := ""
  type : String := ""
  filePath : String := ""
  line : Int := 0
  column : Int := 0
deriving DecidableEq

/-- An import record carried inside `FileData` (struct `ImportEntry` in graph.h). -/
structure ImportEntry where
  source : String := ""
  imported : List String := []
  isTypeOnly : Bool := false
deriving DecidableEq

/-- Per-file data (struct `FileData` in graph.h). -/
structure FileData where
  path : String := ""
  symbols : List Symbol := []
  imports : List ImportEntry := []
deriving DecidableEq

/-- Derived statistics snapshot (struct `GraphStats` in graph.h). -/
structure GraphStats where
  totalSymbols : Nat
  totalReferences : Nat
  totalFiles : Nat
  memoryUsageBytes : Nat
deriving DecidableEq

/-- The whole state of a `ReferenceGraph` instance: the five maps and the
dirty-file set from the private section of the class. -/
structure ReferenceGraph where
  symbols : List (String × Symbol)
  references : List (String × Reference)
  symbolToReferences : List (String × List String)
  symbolToCallers : List (String × List String)
  files : List (String × FileData)
  dirtyFiles : List String
deriving DecidableEq

/-- The state of a freshly constructed `ReferenceGraph`. -/
def emptyGraph : ReferenceGraph :=
  { symbols := [], references := [], symbolToReferences := [],
    symbolToCallers := [], files := [], dirtyFiles := [] }

/-- The outgoing-adjacency list for a symbol id (`symbolToReferences_[a]`,
reading an absent entry as the empty vector). -/
def outgoingList (g : ReferenceGraph) (a : String) : List String :=
  (mapFind? g.symbolToReferences a).getD []

/-- The incoming-adjacency list for a symbol id (`symbolToCallers_[a]`,
reading an absent entry as the empty vector). -/
def incomingList (g : ReferenceGraph) (a : String) : List String :=
  (mapFind? g.symbolToCallers a).getD []

/-- `ReferenceGraph::addSymbol`: `symbols_[symbol.id] = symbol`. -/
def ReferenceGraph.addSymbol (g : ReferenceGraph) (symbol : Symbol) : ReferenceGraph :=
  { g with symbols := mapInsert g.symbols symbol.id symbol }

/-- `ReferenceGraph::addSymbols`: `addSymbol` on each element in order. -/
def ReferenceGraph.addSymbols (g : ReferenceGraph) (symbols : List Symbol) : ReferenceGraph :=
  symbols.foldl ReferenceGraph.addSymbol g

/-- `ReferenceGraph::hasSymbol`. -/
def ReferenceGraph.hasSymbol (g : ReferenceGraph) (symbolId : String) : Bool :=
  (mapFind? g.symbols symbolId).isSome

/-- `ReferenceGraph::getSymbol`: the stored symbol, or a default-constructed
`Symbol()` when the id is absent. -/
def ReferenceGraph.getSymbol (g : ReferenceGraph) (symbolId : String) : Symbol :=
  match mapFind? g.symbols symbolId with
  | some s => s
  | none => {}

/-- `ReferenceGraph::getAllSymbols`: every stored symbol, in map order. -/
def ReferenceGraph.getAllSymbols (g : ReferenceGraph) : List Symbol :=
  g.symbols.map Prod.snd

/-- `ReferenceGraph::addReference`: store the reference by id and append its id
to the outgoing list of its source and the incoming list of its target
(`operator[]` default-constructs an absent list before `push_back`). -/
def ReferenceGraph.addReference (g : ReferenceGraph) (reference : Reference) : ReferenceGraph :=
  { g with
    references := mapInsert g.references reference.id reference,
    symbolToReferences := mapInsert g.symbolToReferences reference.fromSymbolId
      (((mapFind? g.symbolToReferences reference.fromSymbolId).getD []) ++ [reference.id]),
    symbolToCallers := mapInsert g.symbolToCallers reference.toSymbolId
      (((mapFind? g.symbolToCallers reference.toSymbolId).getD []) ++ [reference.id]) }

/-- `ReferenceGraph::addReferences`: `addReference` on each element in order. -/
def ReferenceGraph.addReferences (g : ReferenceGraph) (references : List Reference) : ReferenceGraph :=
  references.foldl ReferenceGraph.addReference g

/-- One iteration of the loop in `ReferenceGraph::removeReferences`: if `refId`
is still in the reference table, erase every occurrence of it from the incoming
list of the reference's target (`erase(remove(...))`, creating the entry when
absent, as `operator[]` does) and erase the reference itself. -/
def rmRefStep (g : ReferenceGraph) (refId : String) : ReferenceGraph :=
  match mapFind? g.references refId with
  | none => g
  | some r =>
      { g with
        symbolToCallers := mapInsert g.symbolToCallers r.toSymbolId
          ((incomingList g r.toSymbolId).filter (fun x => x != refId)),
        references := mapErase g.references refId }

/-- `ReferenceGraph::removeReferences`: walk the outgoing list of `symbolId`
(if any), erasing each listed reference and pruning it from its target's
incoming list, then erase the outgoing entry for `symbolId` entirely. -/
def ReferenceGraph.removeReferences (g : ReferenceGraph) (symbolId : String) : ReferenceGraph :=
  match mapFind? g.symbolToReferences symbolId with
  | none => g
  | some refIds =>
      let g' := refIds.foldl rmRefStep g
      { g' with symbolToReferences := mapErase g'.symbolToReferences symbolId }

/-- `ReferenceGraph::findCallers`: resolve each id of the incoming list of
`symbolId` through the reference table, silently skipping dangling ids. -/
def ReferenceGraph.findCallers (g : ReferenceGraph) (symbolId : String) : List Reference :=
  match mapFind? g.symbolToCallers symbolId with
  | none => []
  | some refIds => refIds.filterMap (fun refId => mapFind? g.references refId)

/-- `ReferenceGraph::findCallees`: resolve each id of the outgoing list of
`symbolId` through the reference table, silently skipping dangling ids. -/
def ReferenceGraph.findCallees (g : ReferenceGraph) (symbolId : String) : List Reference :=
  match mapFind? g.symbolToReferences symbolId with
  | none => []
  | some refIds => refIds.filterMap (fun refId => mapFind? g.references refId)

/-- `ReferenceGraph::addFile`: store the file record by path, then add its
symbols to the global symbol table. -/
def ReferenceGraph.addFile (g : ReferenceGraph) (file : FileData) : ReferenceGraph :=
  ReferenceGraph.addSymbols { g with files := mapInsert g.files file.path file } file.symbols

/-- One iteration of the inner callers loop of `ReferenceGraph::removeFile`:
if `refId` is still in the reference table, erase every occurrence of it from
the outgoing list of the reference's source and erase the reference itself. -/
def rmCallerStep (g : ReferenceGraph) (refId : String) : ReferenceGraph :=
  match mapFind? g.references refId with
  | none => g
  | some r =>
      { g with
        symbolToReferences := mapInsert g.symbolToReferences r.fromSymbolId
          ((outgoingList g r.fromSymbolId).filter (fun x => x != refId)),
        references := mapErase g.references refId }

/-- The incoming-reference purge block of `ReferenceGraph::removeFile`: walk
the incoming list of `sid` (if any), erasing each listed reference and pruning
it from its source's outgoing list, then erase the incoming entry for `sid`
entirely. -/
def callersPhase (g : ReferenceGraph) (sid : String) : ReferenceGraph :=
  match mapFind? g.symbolToCallers sid with
  | none => g
  | some refIds =>
      let g3 := refIds.foldl rmCallerStep g
      { g3 with symbolToCallers := mapErase g3.symbolToCallers sid }

/-- One iteration of the per-symbol loop in `ReferenceGraph::removeFile`:
purge the symbol's outgoing references via `removeReferences`, erase the symbol,
then run the incoming-reference purge block for the symbol's id. -/
def removeFileSym (g : ReferenceGraph) (sym : Symbol) : ReferenceGraph :=
  let g1 := g.removeReferences sym.id
  callersPhase { g1 with symbols := mapErase g1.symbols sym.id } sym.id

/-- `ReferenceGraph::removeFile`: if the path is recorded, run the cascading
per-symbol purge over the file's symbol list and erase the file record. -/
def ReferenceGraph.removeFile (g : ReferenceGraph) (filePath : String) : ReferenceGraph :=
  match mapFind? g.files filePath with
  | none => g
  | some fd =>
      let g' := fd.symbols.foldl removeFileSym g
      { g' with files := mapErase g'.files filePath }

/-- `ReferenceGraph::updateFile`: `removeFile` then `addFile`. -/
def ReferenceGraph.updateFile (g : ReferenceGraph) (filePath : String) (file : FileData) :
    ReferenceGraph :=
  (g.removeFile filePath).addFile file

/-- `ReferenceGraph::markFileDirty`: insert the path into the dirty-file set. -/
def ReferenceGraph.markFileDirty (g : ReferenceGraph) (filePath : String) : ReferenceGraph :=
  if filePath ∈ g.dirtyFiles then g else { g with dirtyFiles := g.dirtyFiles ++ [filePath] }

/-- `ReferenceGraph::clearDirtyFiles`. -/
def ReferenceGraph.clearDirtyFiles (g : ReferenceGraph) : ReferenceGraph :=
  { g with dirtyFiles := [] }

/-- `ReferenceGraph::hasFile`. -/
def ReferenceGraph.hasFile (g : ReferenceGraph) (filePath : String) : Bool :=
  (mapFind? g.files filePath).isSome

/-- `ReferenceGraph::isSymbolUsed`: the incoming entry exists and is non-empty. -/
def ReferenceGraph.isSymbolUsed (g : ReferenceGraph) (symbolId : String) : Bool :=
  match mapFind? g.symbolToCallers symbolId with
  | none => false
  | some refIds => !refIds.isEmpty

/-- `ReferenceGraph::findUnusedSymbols`: every stored symbol whose key is not
used, in map order. -/
def ReferenceGraph.findUnusedSymbols (g : ReferenceGraph) : List Symbol :=
  (g.symbols.filter (fun p => !(g.isSymbolUsed p.1))).map Prod.snd

/-- `ReferenceGraph::findSymbolsByName`: linear scan, exact name match. -/
def ReferenceGraph.findSymbolsByName (g : ReferenceGraph) (name : String) : List Symbol :=
  (g.symbols.filter (fun p => p.2.name == name)).map Prod.snd

/-- `ReferenceGraph::findSymbolsByFile`: the stored file record's symbol list,
or empty when the path is unknown. -/
def ReferenceGraph.findSymbolsByFile (g : ReferenceGraph) (filePath : String) : List Symbol :=
  match mapFind? g.files filePath with
  | some fd => fd.symbols
  | none => []

/-- `ReferenceGraph::findExportedSymbols`: linear scan filtered by `isExported`. -/
def ReferenceGraph.findExportedSymbols (g : ReferenceGraph) : List Symbol :=
  (g.symbols.filter (fun p => p.2.isExported)).map Prod.snd

/-- Byte size of the C++ `Symbol` struct; `sizeof` is platform dependent, fixed
here as a representative 64-bit value (5 strings, 2 ints, 2 padded bools). -/
def sizeofSymbol : Nat := 176

/-- Byte size of the C++ `Reference` struct (representative 64-bit value). -/
def sizeofReference : Nat := 168

/-- Byte size of the C++ `FileData` struct (representative 64-bit value). -/
def sizeofFileData : Nat := 80

/-- `ReferenceGraph::calculateMemoryUsage`: entry counts times struct sizes,
explicitly ignoring dynamic string storage. -/
def ReferenceGraph.calculateMemoryUsage (g : ReferenceGraph) : Nat :=
  g.symbols.length * sizeofSymbol + g.references.length * sizeofReference +
    g.files.length * sizeofFileData

/-- `ReferenceGraph::getStats`. -/
def ReferenceGraph.getStats (g : ReferenceGraph) : GraphStats :=
  { totalSymbols := g.symbols.length,
    totalReferences := g.references.length,
    totalFiles := g.files.length,
    memoryUsageBytes := g.calculateMemoryUsage }

/-- `ReferenceGraph::size`: the symbol count. -/
def ReferenceGraph.size (g : ReferenceGraph) : Nat :=
  g.symbols.length

/-- `ReferenceGraph::clear`: empty every map and the dirty-file set. -/
def ReferenceGraph.clear (_ : ReferenceGraph) : ReferenceGraph :=
  emptyGraph

/-- `ReferenceGraph::generateSymbolId`. -/
def ReferenceGraph.generateSymbolId (_ : ReferenceGraph) (name : String) (filePath : String)
    (line : Int) : String :=
  filePath ++ "::" ++ name ++ "::" ++ toString line

/-- The state-mutating public operations of `ReferenceGraph`, used to describe
the states reachable through the public interface (the remaining public
methods are `const` and leave the state unchanged). -/
inductive Op where
  | opAddSymbol (s : Symbol)
  | opAddSymbols (l : List Symbol)
  | opAddReference (r : Reference)
  | opAddReferences (l : List Reference)
  | opRemoveReferences (symbolId : String)
  | opAddFile (f : FileData)
  | opUpdateFile (p : String) (f : FileData)
  | opRemoveFile (p : String)
  | opMarkFileDirty (p : String)
  | opClearDirtyFiles
  | opClear

/-- Apply one public mutating operation to a graph state. -/
def applyOp (g : ReferenceGraph) : Op → ReferenceGraph
  | Op.opAddSymbol s => g.addSymbol s
  | Op.opAddSymbols l => g.addSymbols l
  | Op.opAddReference r => g.addReference r
  | Op.opAddReferences l => g.addReferences l
  | Op.opRemoveReferences symbolId => g.removeReferences symbolId
  | Op.opAddFile f => g.addFile f
  | Op.opUpdateFile p f => g.updateFile p f
  | Op.opRemoveFile p => g.removeFile p
  | Op.opMarkFileDirty p => g.markFileDirty p
  | Op.opClearDirtyFiles => g.clearDirtyFiles
  | Op.opClear => g.clear

/-- The graph states reachable from a fresh instance by public operations. -/
inductive Reachable : ReferenceGraph → Prop where
  | empty : Reachable emptyGraph
  | step (g : ReferenceGraph) (o : Op) : Reachable g → Reachable (applyOp g o)

/-! Association-map lemmas. -/

/-- Keys of an association list are duplicate-free. -/
def NodupKeys {α : Type} (m : List (String × α)) : Prop :=
  (m.map Prod.fst).Nodup

theorem mapFind?_insert_self {α : Type} (m : List (String × α)) (k : String) (v : α) :
    mapFind? (mapInsert m k v) k = some v := by
  induction m with
  | nil => simp [mapInsert, mapFind?]
  | cons p rest ih =>
      obtain ⟨k', v'⟩ := p
      by_cases h : k' = k
      · simp [mapInsert, h, mapFind?]
      · simp [mapInsert, h, mapFind?, ih]

theorem mapFind?_insert_ne {α : Type} (m : List (String × α)) (k : String) (v : α)
    (k' : String) (h : k' ≠ k) : mapFind? (mapInsert m k v) k' = mapFind? m k' := by
  induction m with
  | nil => simp only [mapInsert, mapFind?, if_neg (Ne.symm h)]
  | cons p rest ih =>
      obtain ⟨a, b⟩ := p
      by_cases ha : a = k
      · have hak' : ¬ (a = k') := fun hh => h ((hh.symm).trans ha)
        simp only [mapInsert, if_pos ha, mapFind?, if_neg hak', if_neg (Ne.symm h)]
      · simp only [mapInsert, if_neg ha, mapFind?]
        by_cases hb : a = k'
        · simp [hb]
        · simp [hb, ih]

theorem mem_of_mapFind? {α : Type} {m : List (String × α)} {k : String} {v : α}
    (h : mapFind? m k = some v) : (k, v) ∈ m := by
  induction m with
  | nil => simp [mapFind?] at h
  | cons p rest ih =>
      obtain ⟨a, b⟩ := p
      by_cases ha : a = k
      · subst ha
        simp [mapFind?] at h
        simp [h]
      · simp only [mapFind?, if_neg ha] at h
        exact List.mem_cons_of_mem _ (ih h)

theorem mapFind?_of_mem {α : Type} {m : List (String × α)} {k : String} {v : α}
    (hn : NodupKeys m) (h : (k, v) ∈ m) : mapFind? m k = some v := by
  induction m with
  | nil => simp at h
  | cons p rest ih =>
      obtain ⟨a, b⟩ := p
      simp only [NodupKeys, List.map_cons, List.nodup_cons] at hn
      rcases List.mem_cons.mp h with h1 | h1
      · obtain ⟨hk, hv⟩ := Prod.mk.injEq .. ▸ h1
        simp [mapFind?, hk.symm, hv]
      · have hak : a ≠ k := by
          intro hak
          subst hak
          exact hn.1 (List.mem_map.mpr ⟨(a, v), h1, rfl⟩)
        simp only [mapFind?, if_neg hak]
        exact ih hn.2 h1

theorem mapErase_sublist {α : Type} (m : List (String × α)) (k : String) :
    (mapErase m k).Sublist m := by
  induction m with
  | nil => simp [mapErase]
  | cons p rest ih =>
      obtain ⟨a, b⟩ := p
      by_cases ha : a = k
      · simp only [mapErase, if_pos ha]
        exact List.sublist_cons_self (a, b) rest
      · simp only [mapErase, if_neg ha]
        exact List.Sublist.cons₂ (a, b) ih

theorem mapFind?_erase_ne {α : Type} (m : List (String × α)) (k k' : String) (h : k' ≠ k) :
    mapFind? (mapErase m k) k' = mapFind? m k' := by
  induction m with
  | nil => simp [mapErase]
  | cons p rest ih =>
      obtain ⟨a, b⟩ := p
      by_cases ha : a = k
      · have hak' : ¬ (a = k') := fun hh => h ((hh.symm).trans ha)
        simp only [mapErase, if_pos ha, mapFind?, if_neg hak']
      · simp only [mapErase, if_neg ha, mapFind?]
        by_cases hb : a = k'
        · simp [hb]
        · simp [hb, ih]

theorem mapFind?_erase_self {α : Type} (m : List (String × α)) (k : String)
    (hn : NodupKeys m) : mapFind? (mapErase m k) k = none := by
  induction m with
  | nil => simp [mapErase, mapFind?]
  | cons p rest ih =>
      obtain ⟨a, b⟩ := p
      simp only [NodupKeys, List.map_cons, List.nodup_cons] at hn
      by_cases ha : a = k
      · subst ha
        simp only [mapErase, if_pos rfl]
        cases hf : mapFind? rest a with
        | none => exact hf
        | some v => exact absurd (List.mem_map.mpr ⟨(a, v), mem_of_mapFind? hf, rfl⟩) hn.1
      · simp only [mapErase, if_neg ha, mapFind?, if_neg ha]
        exact ih hn.2

theorem mapFind?_erase_none {α : Type} {m : List (String × α)} {k j : String}
    (hn : NodupKeys m) (h : mapFind? m j = none) : mapFind? (mapErase m k) j = none := by
  by_cases hk : j = k
  · subst hk
    exact mapFind?_erase_self m j hn
  · rw [mapFind?_erase_ne m k j hk]
    exact h

theorem mapFind?_erase_some {α : Type} {m : List (String × α)} {k j : String} {v : α}
    (hn : NodupKeys m) (h : mapFind? (mapErase m k) j = some v) :
    mapFind? m j = some v ∧ j ≠ k := by
  by_cases hk : j = k
  · subst hk
    rw [mapFind?_erase_self m j hn] at h
    exact absurd h (by simp)
  · rw [mapFind?_erase_ne m k j hk] at h
    exact ⟨h, hk⟩

theorem mem_keys_insert {α : Type} {m : List (String × α)} {k a : String} {v : α}
    (h : a ∈ (mapInsert m k v).map Prod.fst) : a ∈ m.map Prod.fst ∨ a = k := by
  induction m with
  | nil =>
      right
      simp only [mapInsert, List.map_cons, List.map_nil, List.mem_singleton] at h
      exact h
  | cons p rest ih =>
      obtain ⟨b, w⟩ := p
      simp only [mapInsert] at h
      by_cases hb : b = k
      · rw [if_pos hb] at h
        simp only [List.map_cons, List.mem_cons] at h
        rcases h with h | h
        · exact Or.inr h
        · exact Or.inl (List.mem_cons_of_mem _ h)
      · rw [if_neg hb] at h
        simp only [List.map_cons, List.mem_cons] at h
        rcases h with h | h
        · exact Or.inl (List.mem_cons.mpr (Or.inl h))
        · rcases ih h with h1 | h1
          · exact Or.inl (List.mem_cons_of_mem _ h1)
          · exact Or.inr h1

theorem nodupKeys_insert {α : Type} {m : List (String × α)} (k : String) (v : α)
    (hn : NodupKeys m) : NodupKeys (mapInsert m k v) := by
  induction m with
  | nil => simp [mapInsert, NodupKeys]
  | cons p rest ih =>
      obtain ⟨a, b⟩ := p
      simp only [NodupKeys, List.map_cons, List.nodup_cons] at hn
      by_cases ha : a = k
      · subst ha
        simpa [mapInsert, NodupKeys] using hn
      · have h1 : NodupKeys (mapInsert rest k v) := ih hn.2
        simp only [NodupKeys, mapInsert, if_neg ha, List.map_cons, List.nodup_cons]
        refine ⟨fun hmem => ?_, h1⟩
        rcases mem_keys_insert hmem with h2 | h2
        · exact hn.1 h2
        · exact ha h2

theorem nodupKeys_erase {α : Type} {m : List (String × α)} (k : String)
    (hn : NodupKeys m) : NodupKeys (mapErase m k) :=
  List.Nodup.sublist (List.Sublist.map Prod.fst (mapErase_sublist m k)) hn

/-! The central consistency invariant.  `GInv` records the facts that hold of
every state reachable through the public interface: each map has duplicate-free
keys, symbols and references are stored under their own `id` field, and every
stored reference is listed (at least once) in the outgoing list of its source
and the incoming list of its target.  The spec's stronger "exactly once" form
fails on reachable states (re-adding a reference id duplicates the adjacency
entries), which is settled separately below. -/

/-- Invariant of reachable `ReferenceGraph` states. -/
structure GInv (g : ReferenceGraph) : Prop where
  nodupSymbols : NodupKeys g.symbols
  nodupRefs : NodupKeys g.references
  nodupOut : NodupKeys g.symbolToReferences
  nodupIn : NodupKeys g.symbolToCallers
  nodupFiles : NodupKeys g.files
  keySym : ∀ i s, mapFind? g.symbols i = some s → s.id = i
  keyRef : ∀ i r, mapFind? g.references i = some r → r.id = i
  refOut : ∀ i r, mapFind? g.references i = some r → i ∈ outgoingList g r.fromSymbolId
  refIn : ∀ i r, mapFind? g.references i = some r → i ∈ incomingList g r.toSymbolId

/-- The reference table of `g'` is contained in that of `g`. -/
def RefsLe (g' g : ReferenceGraph) : Prop :=
  ∀ i r, mapFind? g'.references i = some r → mapFind? g.references i = some r

theorem refsLe_refl (g : ReferenceGraph) : RefsLe g g := fun _ _ h => h

theorem refsLe_trans {g1 g2 g3 : ReferenceGraph} (h12 : RefsLe g1 g2) (h23 : RefsLe g2 g3) :
    RefsLe g1 g3 := fun i r h => h23 i r (h12 i r h)

theorem ginv_emptyGraph : GInv emptyGraph := by
  refine ⟨?_, ?_, ?_, ?_, ?_, ?_, ?_, ?_, ?_⟩
  case refine_1 => simp [NodupKeys, emptyGraph]
  case refine_2 => simp [NodupKeys, emptyGraph]
  case refine_3 => simp [NodupKeys, emptyGraph]
  case refine_4 => simp [NodupKeys, emptyGraph]
  case refine_5 => simp [NodupKeys, emptyGraph]
  all_goals intro i x h
  all_goals simp [emptyGraph, mapFind?] at h

theorem ginv_addSymbol (g : ReferenceGraph) (s : Symbol) (hg : GInv g) :
    GInv (g.addSymbol s) := by
  refine ⟨nodupKeys_insert _ _ hg.nodupSymbols, hg.nodupRefs, hg.nodupOut, hg.nodupIn,
    hg.nodupFiles, ?_, hg.keyRef, hg.refOut, hg.refIn⟩
  intro i s' h
  simp only [ReferenceGraph.addSymbol] at h
  by_cases hi : i = s.id
  · subst hi
    rw [mapFind?_insert_self] at h
    cases h
    rfl
  · rw [mapFind?_insert_ne _ _ _ _ hi] at h
    exact hg.keySym i s' h

theorem ginv_addSymbols (l : List Symbol) : ∀ g : ReferenceGraph, GInv g → GInv (g.addSymbols l) := by
  induction l with
  | nil => intro g hg; exact hg
  | cons s rest ih => intro g hg; exact ih (g.addSymbol s) (ginv_addSymbol g s hg)

theorem outgoingList_addReference (g : ReferenceGraph) (r : Reference) (a : String) :
    outgoingList (g.addReference r) a =
      if a = r.fromSymbolId then outgoingList g r.fromSymbolId ++ [r.id] else outgoingList g a := by
  by_cases ha : a = r.fromSymbolId
  · subst ha
    simp [outgoingList, ReferenceGraph.addReference, mapFind?_insert_self]
  · simp [outgoingList, ReferenceGraph.addReference, ha, mapFind?_insert_ne _ _ _ _ ha]

theorem incomingList_addReference (g : ReferenceGraph) (r : Reference) (a : String) :
    incomingList (g.addReference r) a =
      if a = r.toSymbolId then incomingList g r.toSymbolId ++ [r.id] else incomingList g a := by
  by_cases ha : a = r.toSymbolId
  · subst ha
    simp [incomingList, ReferenceGraph.addReference, mapFind?_insert_self]
  · simp [incomingList, ReferenceGraph.addReference, ha, mapFind?_insert_ne _ _ _ _ ha]

theorem ginv_addReference (g : ReferenceGraph) (r : Reference) (hg : GInv g) :
    GInv (g.addReference r) := by
  refine ⟨hg.nodupSymbols, nodupKeys_insert _ _ hg.nodupRefs, nodupKeys_insert _ _ hg.nodupOut,
    nodupKeys_insert _ _ hg.nodupIn, hg.nodupFiles, hg.keySym, ?_, ?_, ?_⟩
  · intro i r' h
    simp only [ReferenceGraph.addReference] at h
    by_cases hi : i = r.id
    · subst hi
      rw [mapFind?_insert_self] at h
      cases h
      rfl
    · rw [mapFind?_insert_ne _ _ _ _ hi] at h
      exact hg.keyRef i r' h
  · intro i r' h
    rw [outgoingList_addReference]
    have h' : mapFind? (mapInsert g.references r.id r) i = some r' := h
    by_cases hi : i = r.id
    · subst hi
      rw [mapFind?_insert_self] at h'
      cases h'
      simp
    · rw [mapFind?_insert_ne _ _ _ _ hi] at h'
      have hmem := hg.refOut i r' h'
      by_cases hfrom : r'.fromSymbolId = r.fromSymbolId
      · rw [if_pos hfrom, ← hfrom]
        exact List.mem_append_left _ hmem
      · rw [if_neg hfrom]
        exact hmem
  · intro i r' h
    rw [incomingList_addReference]
    have h' : mapFind? (mapInsert g.references r.id r) i = some r' := h
    by_cases hi : i = r.id
    · subst hi
      rw [mapFind?_insert_self] at h'
      cases h'
      simp
    · rw [mapFind?_insert_ne _ _ _ _ hi] at h'
      have hmem := hg.refIn i r' h'
      by_cases hto : r'.toSymbolId = r.toSymbolId
      · rw [if_pos hto, ← hto]
        exact List.mem_append_left _ hmem
      · rw [if_neg hto]
        exact hmem

theorem ginv_addReferences (l : List Reference) :
    ∀ g : ReferenceGraph, GInv g → GInv (g.addReferences l) := by
  induction l with
  | nil => intro g hg; exact hg
  | cons r rest ih => intro g hg; exact ih (g.addReference r) (ginv_addReference g r hg)

/-! Lemmas about `removeReferences` and its loop body `rmRefStep`. -/

theorem rmRefStep_none (g : ReferenceGraph) (i : String)
    (hf : mapFind? g.references i = none) : rmRefStep g i = g := by
  simp [rmRefStep, hf]

theorem rmRefStep_some (g : ReferenceGraph) (i : String) (r : Reference)
    (hf : mapFind? g.references i = some r) :
    rmRefStep g i =
      { g with
        symbolToCallers := mapInsert g.symbolToCallers r.toSymbolId
          ((incomingList g r.toSymbolId).filter (fun x => x != i)),
        references := mapErase g.references i } := by
  simp [rmRefStep, hf]

theorem rmRefStep_out_eq (g : ReferenceGraph) (i : String) :
    (rmRefStep g i).symbolToReferences = g.symbolToReferences := by
  cases hf : mapFind? g.references i with
  | none => rw [rmRefStep_none g i hf]
  | some r => rw [rmRefStep_some g i r hf]

theorem rmRefStep_symbols_eq (g : ReferenceGraph) (i : String) :
    (rmRefStep g i).symbols = g.symbols := by
  cases hf : mapFind? g.references i with
  | none => rw [rmRefStep_none g i hf]
  | some r => rw [rmRefStep_some g i r hf]

theorem rmRefStep_files_eq (g : ReferenceGraph) (i : String) :
    (rmRefStep g i).files = g.files := by
  cases hf : mapFind? g.references i with
  | none => rw [rmRefStep_none g i hf]
  | some r => rw [rmRefStep_some g i r hf]

theorem rmRefStep_find_untouched (g : ReferenceGraph) (i j : String) (hj : j ≠ i) :
    mapFind? (rmRefStep g i).references j = mapFind? g.references j := by
  cases hf : mapFind? g.references i with
  | none => rw [rmRefStep_none g i hf]
  | some r =>
      rw [rmRefStep_some g i r hf]
      exact mapFind?_erase_ne g.references i j hj

theorem rmRefStep_find_self (g : ReferenceGraph) (i : String) (hn : NodupKeys g.references) :
    mapFind? (rmRefStep g i).references i = none := by
  cases hf : mapFind? g.references i with
  | none => rw [rmRefStep_none g i hf]; exact hf
  | some r =>
      rw [rmRefStep_some g i r hf]
      exact mapFind?_erase_self g.references i hn

theorem rmRefStep_refsLe (g : ReferenceGraph) (i : String) (hn : NodupKeys g.references) :
    RefsLe (rmRefStep g i) g := by
  intro j r' h
  cases hf : mapFind? g.references i with
  | none => rw [rmRefStep_none g i hf] at h; exact h
  | some r =>
      rw [rmRefStep_some g i r hf] at h
      exact (mapFind?_erase_some hn h).1

theorem incomingList_rmRefStep_some (g : ReferenceGraph) (i : String) (r : Reference)
    (hf : mapFind? g.references i = some r) (a : String) :
    incomingList (rmRefStep g i) a =
      if a = r.toSymbolId then (incomingList g r.toSymbolId).filter (fun x => x != i)
      else incomingList g a := by
  rw [rmRefStep_some g i r hf]
  by_cases ha : a = r.toSymbolId
  · simp [incomingList, ha, mapFind?_insert_self]
  · simp [incomingList, ha, mapFind?_insert_ne _ _ _ _ ha]

theorem rmRefStep_incoming_subset (g : ReferenceGraph) (i : String) (a : String) :
    incomingList (rmRefStep g i) a ⊆ incomingList g a := by
  cases hf : mapFind? g.references i with
  | none =>
      rw [rmRefStep_none g i hf]
      exact List.Subset.refl _
  | some r =>
      rw [incomingList_rmRefStep_some g i r hf]
      by_cases ha : a = r.toSymbolId
      · rw [if_pos ha, ha]
        exact (List.filter_sublist _).subset
      · rw [if_neg ha]
        exact List.Subset.refl _

theorem ginv_rmRefStep (g : ReferenceGraph) (i : String) (hg : GInv g) :
    GInv (rmRefStep g i) := by
  cases hf : mapFind? g.references i with
  | none => rw [rmRefStep_none g i hf]; exact hg
  | some r =>
      refine ⟨?_, ?_, ?_, ?_, ?_, ?_, ?_, ?_, ?_⟩
      · rw [rmRefStep_symbols_eq]; exact hg.nodupSymbols
      · rw [rmRefStep_some g i r hf]; exact nodupKeys_erase i hg.nodupRefs
      · rw [rmRefStep_out_eq]; exact hg.nodupOut
      · rw [rmRefStep_some g i r hf]; exact nodupKeys_insert _ _ hg.nodupIn
      · rw [rmRefStep_files_eq]; exact hg.nodupFiles
      · intro j s h
        rw [rmRefStep_symbols_eq] at h
        exact hg.keySym j s h
      · intro j r' h
        exact hg.keyRef j r' (rmRefStep_refsLe g i hg.nodupRefs j r' h)
      · intro j r' h
        have h1 := rmRefStep_refsLe g i hg.nodupRefs j r' h
        have : outgoingList (rmRefStep g i) r'.fromSymbolId = outgoingList g r'.fromSymbolId := by
          simp [outgoingList, rmRefStep_out_eq]
        rw [this]
        exact hg.refOut j r' h1
      · intro j r' h
        rw [rmRefStep_some g i r hf] at h
        obtain ⟨h1, hne⟩ := mapFind?_erase_some hg.nodupRefs h
        have hmem := hg.refIn j r' h1
        rw [incomingList_rmRefStep_some g i r hf]
        by_cases hto : r'.toSymbolId = r.toSymbolId
        · rw [if_pos hto]
          rw [List.mem_filter]
          exact ⟨hto ▸ hmem, by simpa using hne⟩
        · rw [if_neg hto]
          exact hmem

theorem rmRefStep_pruned_self (g : ReferenceGraph) (i : String) (r : Reference)
    (hr : mapFind? g.references i = some r) :
    i ∉ incomingList (rmRefStep g i) r.toSymbolId := by
  rw [incomingList_rmRefStep_some g i r hr, if_pos rfl]
  intro hmem
  rw [List.mem_filter] at hmem
  simp at hmem

theorem fold_rmRefStep_spec (l : List String) :
    ∀ g : ReferenceGraph, GInv g →
      GInv (l.foldl rmRefStep g) ∧
      RefsLe (l.foldl rmRefStep g) g ∧
      (l.foldl rmRefStep g).symbolToReferences = g.symbolToReferences ∧
      (l.foldl rmRefStep g).symbols = g.symbols ∧
      (l.foldl rmRefStep g).files = g.files ∧
      (∀ i ∈ l, mapFind? (l.foldl rmRefStep g).references i = none) ∧
      (∀ j, j ∉ l → mapFind? (l.foldl rmRefStep g).references j = mapFind? g.references j) ∧
      (∀ a, incomingList (l.foldl rmRefStep g) a ⊆ incomingList g a) := by
  induction l with
  | nil =>
      intro g hg
      exact ⟨hg, refsLe_refl g, rfl, rfl, rfl, by simp, fun j _ => rfl,
        fun a => List.Subset.refl _⟩
  | cons i l ih =>
      intro g hg
      have hg1 : GInv (rmRefStep g i) := ginv_rmRefStep g i hg
      obtain ⟨A, B, C, D, E, F, G, H⟩ := ih (rmRefStep g i) hg1
      refine ⟨A, refsLe_trans B (rmRefStep_refsLe g i hg.nodupRefs),
        C.trans (rmRefStep_out_eq g i), D.trans (rmRefStep_symbols_eq g i),
        E.trans (rmRefStep_files_eq g i), ?_, ?_, ?_⟩
      · intro j hj
        simp only [List.foldl_cons]
        rcases List.mem_cons.mp hj with hj | hj
        · subst hj
          by_cases hjl : j ∈ l
          · exact F j hjl
          · rw [G j hjl]
            exact rmRefStep_find_self g j hg.nodupRefs
        · exact F j hj
      · intro j hj
        simp only [List.foldl_cons]
        have hj1 : j ≠ i := fun hh => hj (hh ▸ List.mem_cons_self i l)
        have hj2 : j ∉ l := fun hh => hj (List.mem_cons_of_mem i hh)
        rw [G j hj2, rmRefStep_find_untouched g i j hj1]
      · intro a
        simp only [List.foldl_cons]
        exact (H a).trans (rmRefStep_incoming_subset g i a)

theorem fold_rmRefStep_pruned (l : List String) :
    ∀ g : ReferenceGraph, GInv g →
      ∀ i ∈ l, ∀ r, mapFind? g.references i = some r →
        i ∉ incomingList (l.foldl rmRefStep g) r.toSymbolId := by
  induction l with
  | nil => intro g _ i hi; simp at hi
  | cons j l ih =>
      intro g hg i hi r hr
      have hg1 : GInv (rmRefStep g j) := ginv_rmRefStep g j hg
      by_cases hij : i = j
      · subst hij
        have hni : i ∉ incomingList (rmRefStep g i) r.toSymbolId :=
          rmRefStep_pruned_self g i r hr
        obtain ⟨_, _, _, _, _, _, _, H⟩ := fold_rmRefStep_spec l (rmRefStep g i) hg1
        intro hmem
        exact hni (H r.toSymbolId hmem)
      · rcases List.mem_cons.mp hi with hj1 | hil
        · exact absurd hj1 hij
        · have hr1 : mapFind? (rmRefStep g j).references i = some r := by
            rw [rmRefStep_find_untouched g j i hij]
            exact hr
          exact ih (rmRefStep g j) hg1 i hil r hr1

theorem removeReferences_none (g : ReferenceGraph) (sid : String)
    (hf : mapFind? g.symbolToReferences sid = none) : g.removeReferences sid = g := by
  simp [ReferenceGraph.removeReferences, hf]

theorem removeReferences_some (g : ReferenceGraph) (sid : String) (refIds : List String)
    (hf : mapFind? g.symbolToReferences sid = some refIds) :
    g.removeReferences sid =
      { refIds.foldl rmRefStep g with
        symbolToReferences := mapErase (refIds.foldl rmRefStep g).symbolToReferences sid } := by
  simp [ReferenceGraph.removeReferences, hf]

theorem removeReferences_spec (g : ReferenceGraph) (sid : String) (hg : GInv g) :
    GInv (g.removeReferences sid) ∧
    RefsLe (g.removeReferences sid) g ∧
    (g.removeReferences sid).symbols = g.symbols ∧
    (g.removeReferences sid).files = g.files ∧
    mapFind? (g.removeReferences sid).symbolToReferences sid = none ∧
    (∀ i r, mapFind? (g.removeReferences sid).references i = some r →
      r.fromSymbolId ≠ sid) := by
  cases hf : mapFind? g.symbolToReferences sid with
  | none =>
      rw [removeReferences_none g sid hf]
      refine ⟨hg, refsLe_refl g, rfl, rfl, hf, ?_⟩
      intro i r h hfrom
      have hmem := hg.refOut i r h
      rw [hfrom] at hmem
      simp [outgoingList, hf] at hmem
  | some refIds =>
      obtain ⟨A, B, C, D, E, F, G, H⟩ := fold_rmRefStep_spec refIds g hg
      have houtIds : outgoingList g sid = refIds := by simp [outgoingList, hf]
      rw [removeReferences_some g sid refIds hf]
      have hpurged : ∀ i r,
          mapFind? (refIds.foldl rmRefStep g).references i = some r → r.fromSymbolId ≠ sid := by
        intro i r h hfrom
        have hmem := A.refOut i r h
        rw [hfrom] at hmem
        have : outgoingList (refIds.foldl rmRefStep g) sid = refIds := by
          simp [outgoingList, C, hf]
        rw [this] at hmem
        rw [F i hmem] at h
        exact Option.noConfusion h
      refine ⟨?_, ?_, D, ?_, ?_, ?_⟩
      · refine ⟨?_, ?_, ?_, ?_, ?_, ?_, ?_, ?_, ?_⟩
        · exact A.nodupSymbols
        · exact A.nodupRefs
        · exact nodupKeys_erase sid A.nodupOut
        · exact A.nodupIn
        · exact A.nodupFiles
        · exact A.keySym
        · exact A.keyRef
        · intro i r h
          have hfrom := hpurged i r h
          have hmem := A.refOut i r h
          show i ∈ (mapFind? (mapErase (refIds.foldl rmRefStep g).symbolToReferences sid)
            r.fromSymbolId).getD []
          rw [mapFind?_erase_ne _ sid r.fromSymbolId hfrom]
          exact hmem
        · exact A.refIn
      · exact B
      · exact E
      · show mapFind? (mapErase (refIds.foldl rmRefStep g).symbolToReferences sid) sid = none
        exact mapFind?_erase_self _ sid A.nodupOut
      · exact hpurged

/-! Mirror lemmas for the incoming purge loop of `removeFile`. -/

theorem rmCallerStep_none (g : ReferenceGraph) (i : String)
    (hf : mapFind? g.references i = none) : rmCallerStep g i = g := by
  simp [rmCallerStep, hf]

theorem rmCallerStep_some (g : ReferenceGraph) (i : String) (r : Reference)
    (hf : mapFind? g.references i = some r) :
    rmCallerStep g i =
      { g with
        symbolToReferences := mapInsert g.symbolToReferences r.fromSymbolId
          ((outgoingList g r.fromSymbolId).filter (fun x => x != i)),
        references := mapErase g.references i } := by
  simp [rmCallerStep, hf]

theorem rmCallerStep_in_eq (g : ReferenceGraph) (i : String) :
    (rmCallerStep g i).symbolToCallers = g.symbolToCallers := by
  cases hf : mapFind? g.references i with
  | none => rw [rmCallerStep_none g i hf]
  | some r => rw [rmCallerStep_some g i r hf]

theorem rmCallerStep_symbols_eq (g : ReferenceGraph) (i : String) :
    (rmCallerStep g i).symbols = g.symbols := by
  cases hf : mapFind? g.references i with
  | none => rw [rmCallerStep_none g i hf]
  | some r => rw [rmCallerStep_some g i r hf]

theorem rmCallerStep_files_eq (g : ReferenceGraph) (i : String) :
    (rmCallerStep g i).files = g.files := by
  cases hf : mapFind? g.references i with
  | none => rw [rmCallerStep_none g i hf]
  | some r => rw [rmCallerStep_some g i r hf]

theorem rmCallerStep_find_untouched (g : ReferenceGraph) (i j : String) (hj : j ≠ i) :
    mapFind? (rmCallerStep g i).references j = mapFind? g.references j := by
  cases hf : mapFind? g.references i with
  | none => rw [rmCallerStep_none g i hf]
  | some r =>
      rw [rmCallerStep_some g i r hf]
      exact mapFind?_erase_ne g.references i j hj

theorem rmCallerStep_find_self (g : ReferenceGraph) (i : String) (hn : NodupKeys g.references) :
    mapFind? (rmCallerStep g i).references i = none := by
  cases hf : mapFind? g.references i with
  | none => rw [rmCallerStep_none g i hf]; exact hf
  | some r =>
      rw [rmCallerStep_some g i r hf]
      exact mapFind?_erase_self g.references i hn

theorem rmCallerStep_refsLe (g : ReferenceGraph) (i : String) (hn : NodupKeys g.references) :
    RefsLe (rmCallerStep g i) g := by
  intro j r' h
  cases hf : mapFind? g.references i with
  | none => rw [rmCallerStep_none g i hf] at h; exact h
  | some r =>
      rw [rmCallerStep_some g i r hf] at h
      exact (mapFind?_erase_some hn h).1

theorem outgoingList_rmCallerStep_some (g : ReferenceGraph) (i : String) (r : Reference)
    (hf : mapFind? g.references i = some r) (a : String) :
    outgoingList (rmCallerStep g i) a =
      if a = r.fromSymbolId then (outgoingList g r.fromSymbolId).filter (fun x => x != i)
      else outgoingList g a := by
  rw [rmCallerStep_some g i r hf]
  by_cases ha : a = r.fromSymbolId
  · simp [outgoingList, ha, mapFind?_insert_self]
  · simp [outgoingList, ha, mapFind?_insert_ne _ _ _ _ ha]

theorem ginv_rmCallerStep (g : ReferenceGraph) (i : String) (hg : GInv g) :
    GInv (rmCallerStep g i) := by
  cases hf : mapFind? g.references i with
  | none => rw [rmCallerStep_none g i hf]; exact hg
  | some r =>
      refine ⟨?_, ?_, ?_, ?_, ?_, ?_, ?_, ?_, ?_⟩
      · rw [rmCallerStep_symbols_eq]; exact hg.nodupSymbols
      · rw [rmCallerStep_some g i r hf]; exact nodupKeys_erase i hg.nodupRefs
      · rw [rmCallerStep_some g i r hf]; exact nodupKeys_insert _ _ hg.nodupOut
      · rw [rmCallerStep_in_eq]; exact hg.nodupIn
      · rw [rmCallerStep_files_eq]; exact hg.nodupFiles
      · intro j s h
        rw [rmCallerStep_symbols_eq] at h
        exact hg.keySym j s h
      · intro j r' h
        exact hg.keyRef j r' (rmCallerStep_refsLe g i hg.nodupRefs j r' h)
      · intro j r' h
        rw [rmCallerStep_some g i r hf] at h
        obtain ⟨h1, hne⟩ := mapFind?_erase_some hg.nodupRefs h
        have hmem := hg.refOut j r' h1
        rw [outgoingList_rmCallerStep_some g i r hf]
        by_cases hfrom : r'.fromSymbolId = r.fromSymbolId
        · rw [if_pos hfrom]
          rw [List.mem_filter]
          exact ⟨hfrom ▸ hmem, by simpa using hne⟩
        · rw [if_neg hfrom]
          exact hmem
      · intro j r' h
        have h1 := rmCallerStep_refsLe g i hg.nodupRefs j r' h
        have : incomingList (rmCallerStep g i) r'.toSymbolId = incomingList g r'.toSymbolId := by
          simp [incomingList, rmCallerStep_in_eq]
        rw [this]
        exact hg.refIn j r' h1

theorem fold_rmCallerStep_spec (l : List String) :
    ∀ g : ReferenceGraph, GInv g →
      GInv (l.foldl rmCallerStep g) ∧
      RefsLe (l.foldl rmCallerStep g) g ∧
      (l.foldl rmCallerStep g).symbolToCallers = g.symbolToCallers ∧
      (l.foldl rmCallerStep g).symbols = g.symbols ∧
      (l.foldl rmCallerStep g).files = g.files ∧
      (∀ i ∈ l, mapFind? (l.foldl rmCallerStep g).references i = none) ∧
      (∀ j, j ∉ l → mapFind? (l.foldl rmCallerStep g).references j = mapFind? g.references j) := by
  induction l with
  | nil =>
      intro g hg
      exact ⟨hg, refsLe_refl g, rfl, rfl, rfl, by simp, fun j _ => rfl⟩
  | cons i l ih =>
      intro g hg
      have hg1 : GInv (rmCallerStep g i) := ginv_rmCallerStep g i hg
      obtain ⟨A, B, C, D, E, F, G⟩ := ih (rmCallerStep g i) hg1
      refine ⟨A, refsLe_trans B (rmCallerStep_refsLe g i hg.nodupRefs),
        C.trans (rmCallerStep_in_eq g i), D.trans (rmCallerStep_symbols_eq g i),
        E.trans (rmCallerStep_files_eq g i), ?_, ?_⟩
      · intro j hj
        simp only [List.foldl_cons]
        rcases List.mem_cons.mp hj with hj | hj
        · subst hj
          by_cases hjl : j ∈ l
          · exact F j hjl
          · rw [G j hjl]
            exact rmCallerStep_find_self g j hg.nodupRefs
        · exact F j hj
      · intro j hj
        simp only [List.foldl_cons]
        have hj1 : j ≠ i := fun hh => hj (hh ▸ List.mem_cons_self i l)
        have hj2 : j ∉ l := fun hh => hj (List.mem_cons_of_mem i hh)
        rw [G j hj2, rmCallerStep_find_untouched g i j hj1]

theorem callersPhase_none (g : ReferenceGraph) (sid : String)
    (hf : mapFind? g.symbolToCallers sid = none) : callersPhase g sid = g := by
  simp [callersPhase, hf]

theorem callersPhase_some (g : ReferenceGraph) (sid : String) (refIds : List String)
    (hf : mapFind? g.symbolToCallers sid = some refIds) :
    callersPhase g sid =
      { refIds.foldl rmCallerStep g with
        symbolToCallers := mapErase (refIds.foldl rmCallerStep g).symbolToCallers sid } := by
  simp [callersPhase, hf]

theorem callersPhase_spec (g : ReferenceGraph) (sid : String) (hg : GInv g) :
    GInv (callersPhase g sid) ∧
    RefsLe (callersPhase g sid) g ∧
    (callersPhase g sid).symbols = g.symbols ∧
    (callersPhase g sid).files = g.files ∧
    (∀ i r, mapFind? (callersPhase g sid).references i = some r →
      r.toSymbolId ≠ sid) := by
  cases hf : mapFind? g.symbolToCallers sid with
  | none =>
      rw [callersPhase_none g sid hf]
      refine ⟨hg, refsLe_refl g, rfl, rfl, ?_⟩
      intro i r h hto
      have hmem := hg.refIn i r h
      rw [hto] at hmem
      simp [incomingList, hf] at hmem
  | some refIds =>
      obtain ⟨A, B, C, D, E, F, G⟩ := fold_rmCallerStep_spec refIds g hg
      rw [callersPhase_some g sid refIds hf]
      have hpurged : ∀ i r,
          mapFind? (refIds.foldl rmCallerStep g).references i = some r →
            r.toSymbolId ≠ sid := by
        intro i r h hto
        have hmem := A.refIn i r h
        rw [hto] at hmem
        have : incomingList (refIds.foldl rmCallerStep g) sid = refIds := by
          simp [incomingList, C, hf]
        rw [this] at hmem
        rw [F i hmem] at h
        exact Option.noConfusion h
      refine ⟨?_, B, D, E, hpurged⟩
      refine ⟨?_, ?_, ?_, ?_, ?_, ?_, ?_, ?_, ?_⟩
      · exact A.nodupSymbols
      · exact A.nodupRefs
      · exact A.nodupOut
      · exact nodupKeys_erase sid A.nodupIn
      · exact A.nodupFiles
      · exact A.keySym
      · exact A.keyRef
      · exact A.refOut
      · intro i r h
        have hto := hpurged i r h
        have hmem := A.refIn i r h
        show i ∈ (mapFind? (mapErase (refIds.foldl rmCallerStep g).symbolToCallers sid)
          r.toSymbolId).getD []
        rw [mapFind?_erase_ne _ sid r.toSymbolId hto]
        exact hmem

/-! Specifications of `removeFileSym`, `removeFile` and the remaining ops. -/

theorem removeFileSym_eq (g : ReferenceGraph) (sym : Symbol) :
    removeFileSym g sym =
      callersPhase
        { g.removeReferences sym.id with
          symbols := mapErase (g.removeReferences sym.id).symbols sym.id } sym.id := rfl

theorem removeFileSym_spec (g : ReferenceGraph) (sym : Symbol) (hg : GInv g) :
    GInv (removeFileSym g sym) ∧
    RefsLe (removeFileSym g sym) g ∧
    (removeFileSym g sym).files = g.files ∧
    mapFind? (removeFileSym g sym).symbols sym.id = none ∧
    (∀ k v, mapFind? (removeFileSym g sym).symbols k = some v →
      mapFind? g.symbols k = some v) ∧
    (∀ i r, mapFind? (removeFileSym g sym).references i = some r →
      r.fromSymbolId ≠ sym.id ∧ r.toSymbolId ≠ sym.id) := by
  obtain ⟨hg1, hle1, hsym1, hfil1, hout1, hfrom1⟩ := removeReferences_spec g sym.id hg
  have hg2 : GInv { g.removeReferences sym.id with
      symbols := mapErase (g.removeReferences sym.id).symbols sym.id } := by
    refine ⟨nodupKeys_erase _ hg1.nodupSymbols, hg1.nodupRefs, hg1.nodupOut, hg1.nodupIn,
      hg1.nodupFiles, ?_, hg1.keyRef, hg1.refOut, hg1.refIn⟩
    intro i s h
    exact hg1.keySym i s (mapFind?_erase_some hg1.nodupSymbols h).1
  obtain ⟨hg3, hle3, hsymeq3, hfileq3, hto3⟩ := callersPhase_spec _ sym.id hg2
  rw [removeFileSym_eq]
  have hle2 : RefsLe { g.removeReferences sym.id with
      symbols := mapErase (g.removeReferences sym.id).symbols sym.id } g := fun i r h =>
    hle1 i r h
  refine ⟨hg3, refsLe_trans hle3 hle2, ?_, ?_, ?_, ?_⟩
  · rw [hfileq3]
    exact hfil1
  · rw [hsymeq3]
    show mapFind? (mapErase (g.removeReferences sym.id).symbols sym.id) sym.id = none
    exact mapFind?_erase_self _ sym.id hg1.nodupSymbols
  · intro k v h
    rw [hsymeq3] at h
    have h1 := (mapFind?_erase_some hg1.nodupSymbols h).1
    rw [hsym1] at h1
    exact h1
  · intro i r h
    refine ⟨?_, hto3 i r h⟩
    have h2 := hle3 i r h
    exact hfrom1 i r h2

theorem fold_removeFileSym_spec (l : List Symbol) :
    ∀ g : ReferenceGraph, GInv g →
      GInv (l.foldl removeFileSym g) ∧
      RefsLe (l.foldl removeFileSym g) g ∧
      (l.foldl removeFileSym g).files = g.files ∧
      (∀ k v, mapFind? (l.foldl removeFileSym g).symbols k = some v →
        mapFind? g.symbols k = some v) ∧
      (∀ s ∈ l, mapFind? (l.foldl removeFileSym g).symbols s.id = none) ∧
      (∀ s ∈ l, ∀ i r, mapFind? (l.foldl removeFileSym g).references i = some r →
        r.fromSymbolId ≠ s.id ∧ r.toSymbolId ≠ s.id) := by
  induction l with
  | nil =>
      intro g hg
      exact ⟨hg, refsLe_refl g, rfl, fun k v h => h, by simp, by simp⟩
  | cons s l ih =>
      intro g hg
      obtain ⟨S1, S2, S3, S4, S5, S6⟩ := removeFileSym_spec g s hg
      obtain ⟨A, B, C, D, E, F⟩ := ih (removeFileSym g s) S1
      refine ⟨A, refsLe_trans B S2, C.trans S3, ?_, ?_, ?_⟩
      · intro k v h
        exact S5 k v (D k v h)
      · intro t ht
        simp only [List.foldl_cons]
        rcases List.mem_cons.mp ht with ht | ht
        · cases hS : mapFind? (l.foldl removeFileSym (removeFileSym g s)).symbols t.id with
          | none => rfl
          | some v =>
              have hD := D t.id v hS
              rw [ht, S4] at hD
              exact Option.noConfusion hD
        · exact E t ht
      · intro t ht i r h
        simp only [List.foldl_cons] at h
        rcases List.mem_cons.mp ht with ht | ht
        · subst ht
          exact S6 i r (B i r h)
        · exact F t ht i r h

theorem removeFile_none (g : ReferenceGraph) (p : String)
    (hf : mapFind? g.files p = none) : g.removeFile p = g := by
  simp [ReferenceGraph.removeFile, hf]

theorem removeFile_some (g : ReferenceGraph) (p : String) (fd : FileData)
    (hf : mapFind? g.files p = some fd) :
    g.removeFile p =
      { fd.symbols.foldl removeFileSym g with
        files := mapErase (fd.symbols.foldl removeFileSym g).files p } := by
  simp [ReferenceGraph.removeFile, hf]

theorem removeFile_spec (g : ReferenceGraph) (p : String) (hg : GInv g) :
    GInv (g.removeFile p) ∧
    RefsLe (g.removeFile p) g ∧
    (∀ k v, mapFind? (g.removeFile p).symbols k = some v → mapFind? g.symbols k = some v) ∧
    (∀ fd, mapFind? g.files p = some fd →
      (∀ s ∈ fd.symbols, mapFind? (g.removeFile p).symbols s.id = none) ∧
      (∀ s ∈ fd.symbols, ∀ i r, mapFind? (g.removeFile p).references i = some r →
        r.fromSymbolId ≠ s.id ∧ r.toSymbolId ≠ s.id)) := by
  cases hf : mapFind? g.files p with
  | none =>
      rw [removeFile_none g p hf]
      refine ⟨hg, refsLe_refl g, fun k v h => h, ?_⟩
      intro fd hfd
      exact Option.noConfusion hfd
  | some fd =>
      obtain ⟨A, B, C, D, E, F⟩ := fold_removeFileSym_spec fd.symbols g hg
      rw [removeFile_some g p fd hf]
      refine ⟨?_, B, D, ?_⟩
      · exact ⟨A.nodupSymbols, A.nodupRefs, A.nodupOut, A.nodupIn,
          nodupKeys_erase p A.nodupFiles, A.keySym, A.keyRef, A.refOut, A.refIn⟩
      · intro fd' hfd'
        cases hfd'
        exact ⟨E, F⟩

theorem ginv_addFile (g : ReferenceGraph) (file : FileData) (hg : GInv g) :
    GInv (g.addFile file) := by
  have h1 : GInv { g with files := mapInsert g.files file.path file } :=
    ⟨hg.nodupSymbols, hg.nodupRefs, hg.nodupOut, hg.nodupIn,
      nodupKeys_insert _ _ hg.nodupFiles, hg.keySym, hg.keyRef, hg.refOut, hg.refIn⟩
  exact ginv_addSymbols file.symbols _ h1

theorem ginv_dirty (g : ReferenceGraph) (X : List String) (hg : GInv g) :
    GInv { g with dirtyFiles := X } :=
  ⟨hg.nodupSymbols, hg.nodupRefs, hg.nodupOut, hg.nodupIn, hg.nodupFiles,
    hg.keySym, hg.keyRef, hg.refOut, hg.refIn⟩

theorem ginv_markFileDirty (g : ReferenceGraph) (p : String) (hg : GInv g) :
    GInv (g.markFileDirty p) := by
  unfold ReferenceGraph.markFileDirty
  by_cases hp : p ∈ g.dirtyFiles
  · rw [if_pos hp]
    exact hg
  · rw [if_neg hp]
    exact ginv_dirty g _ hg

theorem ginv_applyOp (g : ReferenceGraph) (o : Op) (hg : GInv g) : GInv (applyOp g o) := by
  cases o with
  | opAddSymbol s => exact ginv_addSymbol g s hg
  | opAddSymbols l => exact ginv_addSymbols l g hg
  | opAddReference r => exact ginv_addReference g r hg
  | opAddReferences l => exact ginv_addReferences l g hg
  | opRemoveReferences sid => exact (removeReferences_spec g sid hg).1
  | opAddFile f => exact ginv_addFile g f hg
  | opUpdateFile p f => exact ginv_addFile _ f (removeFile_spec g p hg).1
  | opRemoveFile p => exact (removeFile_spec g p hg).1
  | opMarkFileDirty p => exact ginv_markFileDirty g p hg
  | opClearDirtyFiles => exact ginv_dirty g [] hg
  | opClear => exact ginv_emptyGraph

theorem ginv_of_reachable {g : ReferenceGraph} (h : Reachable g) : GInv g := by
  induction h with
  | empty => exact ginv_emptyGraph
  | step g o _ ih => exact ginv_applyOp g o ih

/-! Consistency of adjacency lists with the reference table.  `GInv` holds in
every reachable state; the stronger `WellFormed` additionally rules out stale
adjacency entries (an id listed under a symbol whose stored reference no longer
has that symbol as the corresponding endpoint), which re-adding an existing
reference id with different endpoints can produce. -/

/-- Every outgoing-adjacency entry that resolves points back at its key. -/
def ConsistentOut (g : ReferenceGraph) : Prop :=
  ∀ a i r, i ∈ outgoingList g a → mapFind? g.references i = some r → r.fromSymbolId = a

/-- Every incoming-adjacency entry that resolves points back at its key. -/
def ConsistentIn (g : ReferenceGraph) : Prop :=
  ∀ a i r, i ∈ incomingList g a → mapFind? g.references i = some r → r.toSymbolId = a

/-- A state whose adjacency lists are fully consistent with its reference
table: the reachable-state invariant plus the absence of stale entries. -/
def WellFormed (g : ReferenceGraph) : Prop :=
  GInv g ∧ ConsistentOut g ∧ ConsistentIn g

/-- Executable check for `GInv`, used to certify concrete states. -/
def ginvB (g : ReferenceGraph) : Bool :=
  decide ((g.symbols.map Prod.fst).Nodup) && decide ((g.references.map Prod.fst).Nodup) &&
  decide ((g.symbolToReferences.map Prod.fst).Nodup) &&
  decide ((g.symbolToCallers.map Prod.fst).Nodup) && decide ((g.files.map Prod.fst).Nodup) &&
  g.symbols.all (fun p => decide (p.2.id = p.1)) &&
  g.references.all (fun p => decide (p.2.id = p.1) &&
    decide (p.1 ∈ outgoingList g p.2.fromSymbolId) &&
    decide (p.1 ∈ incomingList g p.2.toSymbolId))

/-- Executable check for `ConsistentOut`, used to certify concrete states. -/
def consistentOutB (g : ReferenceGraph) : Bool :=
  g.symbolToReferences.all (fun p => p.2.all (fun i =>
    match mapFind? g.references i with
    | none => true
    | some r => decide (r.fromSymbolId = p.1)))

/-- Executable check for `ConsistentIn`, used to certify concrete states. -/
def consistentInB (g : ReferenceGraph) : Bool :=
  g.symbolToCallers.all (fun p => p.2.all (fun i =>
    match mapFind? g.references i with
    | none => true
    | some r => decide (r.toSymbolId = p.1)))

/-- Executable check for `WellFormed`. -/
def wellFormedB (g : ReferenceGraph) : Bool :=
  ginvB g && consistentOutB g && consistentInB g

theorem ginv_of_ginvB (g : ReferenceGraph) (h : ginvB g = true) : GInv g := by
  simp only [ginvB, Bool.and_eq_true, decide_eq_true_eq, List.all_eq_true] at h
  obtain ⟨⟨⟨⟨⟨⟨h1, h2⟩, h3⟩, h4⟩, h5⟩, h6⟩, h7⟩ := h
  refine ⟨h1, h2, h3, h4, h5, ?_, ?_, ?_, ?_⟩
  · intro i s hf
    exact h6 (i, s) (mem_of_mapFind? hf)
  · intro i r hf
    exact ((h7 (i, r) (mem_of_mapFind? hf)).1).1
  · intro i r hf
    exact ((h7 (i, r) (mem_of_mapFind? hf)).1).2
  · intro i r hf
    exact (h7 (i, r) (mem_of_mapFind? hf)).2

theorem consistentOut_of_b (g : ReferenceGraph) (h : consistentOutB g = true) :
    ConsistentOut g := by
  simp only [consistentOutB, List.all_eq_true] at h
  intro a i r hi hr
  cases hfa : mapFind? g.symbolToReferences a with
  | none => simp [outgoingList, hfa] at hi
  | some l =>
      have hil : i ∈ l := by simpa [outgoingList, hfa] using hi
      have := h (a, l) (mem_of_mapFind? hfa) i hil
      rw [hr] at this
      simpa using this

theorem consistentIn_of_b (g : ReferenceGraph) (h : consistentInB g = true) :
    ConsistentIn g := by
  simp only [consistentInB, List.all_eq_true] at h
  intro a i r hi hr
  cases hfa : mapFind? g.symbolToCallers a with
  | none => simp [incomingList, hfa] at hi
  | some l =>
      have hil : i ∈ l := by simpa [incomingList, hfa] using hi
      have := h (a, l) (mem_of_mapFind? hfa) i hil
      rw [hr] at this
      simpa using this

theorem wellFormed_of_b (g : ReferenceGraph) (h : wellFormedB g = true) : WellFormed g := by
  simp only [wellFormedB, Bool.and_eq_true] at h
  exact ⟨ginv_of_ginvB g h.1.1, consistentOut_of_b g h.1.2, consistentIn_of_b g h.2⟩

/-! Lemmas about the query operations. -/

theorem findCallers_eq (g : ReferenceGraph) (x : String) :
    g.findCallers x = (incomingList g x).filterMap (fun i => mapFind? g.references i) := by
  cases hf : mapFind? g.symbolToCallers x with
  | none => simp [ReferenceGraph.findCallers, hf, incomingList]
  | some l => simp [ReferenceGraph.findCallers, hf, incomingList]

theorem findCallees_eq (g : ReferenceGraph) (x : String) :
    g.findCallees x = (outgoingList g x).filterMap (fun i => mapFind? g.references i) := by
  cases hf : mapFind? g.symbolToReferences x with
  | none => simp [ReferenceGraph.findCallees, hf, outgoingList]
  | some l => simp [ReferenceGraph.findCallees, hf, outgoingList]

theorem mem_findCallers (g : ReferenceGraph) (x : String) (r : Reference) :
    r ∈ g.findCallers x ↔ ∃ i, i ∈ incomingList g x ∧ mapFind? g.references i = some r := by
  rw [findCallers_eq]
  exact List.mem_filterMap

theorem mem_findCallees (g : ReferenceGraph) (x : String) (r : Reference) :
    r ∈ g.findCallees x ↔ ∃ i, i ∈ outgoingList g x ∧ mapFind? g.references i = some r := by
  rw [findCallees_eq]
  exact List.mem_filterMap

theorem findCallers_wf (g : ReferenceGraph) (hw : WellFormed g) (x : String) (r : Reference) :
    r ∈ g.findCallers x ↔ (mapFind? g.references r.id = some r ∧ r.toSymbolId = x) := by
  obtain ⟨hg, _, hin⟩ := hw
  rw [mem_findCallers]
  constructor
  · rintro ⟨i, hi, hr⟩
    have hid : r.id = i := hg.keyRef i r hr
    exact ⟨hid ▸ hr, hin x i r hi hr⟩
  · rintro ⟨hr, hto⟩
    exact ⟨r.id, hto ▸ hg.refIn r.id r hr, hr⟩

theorem findCallees_wf (g : ReferenceGraph) (hw : WellFormed g) (x : String) (r : Reference) :
    r ∈ g.findCallees x ↔ (mapFind? g.references r.id = some r ∧ r.fromSymbolId = x) := by
  obtain ⟨hg, hout, _⟩ := hw
  rw [mem_findCallees]
  constructor
  · rintro ⟨i, hi, hr⟩
    have hid : r.id = i := hg.keyRef i r hr
    exact ⟨hid ▸ hr, hout x i r hi hr⟩
  · rintro ⟨hr, hfrom⟩
    exact ⟨r.id, hfrom ▸ hg.refOut r.id r hr, hr⟩

theorem mem_findUnusedSymbols (g : ReferenceGraph) (s : Symbol) :
    s ∈ g.findUnusedSymbols ↔ ∃ k, (k, s) ∈ g.symbols ∧ g.isSymbolUsed k = false := by
  simp only [ReferenceGraph.findUnusedSymbols, List.mem_map, List.mem_filter,
    Bool.not_eq_true']
  constructor
  · rintro ⟨p, ⟨hp, hused⟩, hsnd⟩
    exact ⟨p.1, by rw [← hsnd]; exact hp, hused⟩
  · rintro ⟨k, hk, hused⟩
    exact ⟨(k, s), ⟨hk, hused⟩, rfl⟩

theorem addSymbols_files_eq (l : List Symbol) :
    ∀ g : ReferenceGraph, (g.addSymbols l).files = g.files := by
  induction l with
  | nil => intro g; rfl
  | cons s rest ih => intro g; exact ih (g.addSymbol s)

theorem addFile_files (g : ReferenceGraph) (f : FileData) :
    (g.addFile f).files = mapInsert g.files f.path f :=
  addSymbols_files_eq f.symbols { g with files := mapInsert g.files f.path f }

/-! Concrete states used by counterexamples and witnesses. -/

/-- Reference with id "x" from symbol "a" to symbol "b". -/
def refAB : Reference := { id := "x", fromSymbolId := "a", toSymbolId := "b" }

/-- Reference re-using id "x" with endpoints "c" and "d". -/
def refCD : Reference := { id := "x", fromSymbolId := "c", toSymbolId := "d" }

/-- Reference re-using id "x" from "a" with a new target "c". -/
def refAC : Reference := { id := "x", fromSymbolId := "a", toSymbolId := "c" }

/-- State after adding refAB once. -/
def gOne : ReferenceGraph := emptyGraph.addReference refAB

/-- State after adding refAB twice: the adjacency entries are duplicated. -/
def gDup : ReferenceGraph := gOne.addReference refAB

/-- State after adding refAB and then refCD (same id, different endpoints):
the adjacency entries for "a" and "b" go stale. -/
def gStale : ReferenceGraph := gOne.addReference refCD

/-- State after adding refAB and then refAC (same id and source, new target). -/
def gOver : ReferenceGraph := gOne.addReference refAC

/-- A symbol with id "s1". -/
def symW : Symbol := { id := "s1" }

/-- A file at path "p" contributing symW. -/
def fileW : FileData := { path := "p", symbols := [symW] }

/-- State holding just symW. -/
def gSym : ReferenceGraph := emptyGraph.addSymbol symW

theorem reachable_gOne : Reachable gOne :=
  Reachable.step emptyGraph (Op.opAddReference refAB) Reachable.empty

/-! The claims. -/

/-- C1 counterexample: gDup is reachable (addReference applied twice with the
same reference), the reference is stored, yet its id occurs twice — not
exactly once — in the outgoing list of its fromSymbolId. -/
theorem c1_counterexample :
    Reachable gDup ∧
    mapFind? gDup.references refAB.id = some refAB ∧
    ¬ ((outgoingList gDup refAB.fromSymbolId).count refAB.id = 1 ∧
       (incomingList gDup refAB.toSymbolId).count refAB.id = 1) := by
  refine ⟨?_, by decide, by decide⟩
  exact Reachable.step gOne (Op.opAddReference refAB) reachable_gOne

/-- C1 (amended): in every state reachable by public operations, for every
reference r present in the references map, r.id appears at least once in the
outgoing-adjacency list keyed by r.fromSymbolId and at least once in the
incoming-adjacency list keyed by r.toSymbolId. -/
theorem c1_bidirectional_mirroring (g : ReferenceGraph) (hg : Reachable g) :
    ∀ i r, mapFind? g.references i = some r →
      1 ≤ (outgoingList g r.fromSymbolId).count r.id ∧
      1 ≤ (incomingList g r.toSymbolId).count r.id := by
  intro i r h
  have hG := ginv_of_reachable hg
  have hid : r.id = i := hG.keyRef i r h
  constructor
  · exact List.count_pos_iff.mpr (hid ▸ hG.refOut i r h)
  · exact List.count_pos_iff.mpr (hid ▸ hG.refIn i r h)

/-- C1 witness: the amended mirroring property evaluated on the concrete
one-reference state. -/
theorem c1_bidirectional_mirroring_witness :
    1 ≤ (outgoingList gOne refAB.fromSymbolId).count refAB.id ∧
    1 ≤ (incomingList gOne refAB.toSymbolId).count refAB.id :=
  c1_bidirectional_mirroring gOne reachable_gOne "x" refAB (by decide)

/-- C2: cascading delete completeness — from any reachable state, after
addFile f then removeFile f.path, every symbol of f is gone from the symbol
table, and no reference touching any of f's symbol ids (in either direction)
is returned by findCallers or findCallees for any queried id. -/
theorem c2_cascading_delete (g : ReferenceGraph) (f : FileData) (hg : Reachable g) :
    (∀ s ∈ f.symbols, ((g.addFile f).removeFile f.path).hasSymbol s.id = false) ∧
    (∀ x r, r ∈ ((g.addFile f).removeFile f.path).findCallers x →
      ∀ s ∈ f.symbols, r.fromSymbolId ≠ s.id ∧ r.toSymbolId ≠ s.id) ∧
    (∀ x r, r ∈ ((g.addFile f).removeFile f.path).findCallees x →
      ∀ s ∈ f.symbols, r.fromSymbolId ≠ s.id ∧ r.toSymbolId ≠ s.id) := by
  have hGa : GInv (g.addFile f) := ginv_addFile g f (ginv_of_reachable hg)
  have hfind : mapFind? (g.addFile f).files f.path = some f := by
    rw [addFile_files]
    exact mapFind?_insert_self g.files f.path f
  obtain ⟨A, B, C, D⟩ := removeFile_spec (g.addFile f) f.path hGa
  obtain ⟨E, F⟩ := D f hfind
  refine ⟨?_, ?_, ?_⟩
  · intro s hs
    simp [ReferenceGraph.hasSymbol, E s hs]
  · intro x r hr s hs
    obtain ⟨i, _, hfr⟩ := (mem_findCallers _ x r).mp hr
    exact F s hs i r hfr
  · intro x r hr s hs
    obtain ⟨i, _, hfr⟩ := (mem_findCallees _ x r).mp hr
    exact F s hs i r hfr

/-- C2 witness: cascading delete evaluated at a concrete file over the
one-reference state. -/
theorem c2_cascading_delete_witness :
    ((gOne.addFile fileW).removeFile fileW.path).hasSymbol "s1" = false :=
  (c2_cascading_delete gOne fileW reachable_gOne).1 symW (by decide)

/-- C3 counterexample: in the reachable state gStale (reference id "x"
re-added with new endpoints), findCallers "b" returns the reference stored
under "x", whose toSymbolId is "d", not "b". -/
theorem c3_counterexample :
    Reachable gStale ∧
    gStale.findCallers "b" = [refCD] ∧ refCD.toSymbolId ≠ "b" := by
  refine ⟨?_, by decide, by decide⟩
  exact Reachable.step gOne (Op.opAddReference refCD) reachable_gOne

/-- C3 (amended): findCallers resolves the incoming-adjacency list of the
queried id through the reference table, in list order, silently skipping
dangling ids, and findCallees does the same over the outgoing list; in every
state with no stale adjacency entries the members of the result are exactly
the stored references with the matching endpoint. -/
theorem c3_findCallers_postcondition (g : ReferenceGraph) (x : String) :
    (g.findCallers x = (incomingList g x).filterMap (fun i => mapFind? g.references i)) ∧
    (g.findCallees x = (outgoingList g x).filterMap (fun i => mapFind? g.references i)) ∧
    (WellFormed g →
      ∀ r, (r ∈ g.findCallers x ↔ (mapFind? g.references r.id = some r ∧ r.toSymbolId = x)) ∧
        (r ∈ g.findCallees x ↔ (mapFind? g.references r.id = some r ∧ r.fromSymbolId = x))) :=
  ⟨findCallers_eq g x, findCallees_eq g x,
    fun hw r => ⟨findCallers_wf g hw x r, findCallees_wf g hw x r⟩⟩

/-- C3 witness: the postcondition evaluated on the concrete one-reference
state, whose well-formedness is checked by computation. -/
theorem c3_findCallers_postcondition_witness :
    wellFormedB gOne = true ∧
    (refAB ∈ gOne.findCallers "b" ↔
      (mapFind? gOne.references refAB.id = some refAB ∧ refAB.toSymbolId = "b")) :=
  ⟨by decide,
    ((c3_findCallers_postcondition gOne "b").2.2 (wellFormed_of_b gOne (by decide)) refAB).1⟩

/-- C4 counterexample: in the reachable state gStale, removeReferences "a"
deletes the stored reference "x" even though its fromSymbolId is "c", not "a". -/
theorem c4_counterexample :
    Reachable gStale ∧
    mapFind? gStale.references "x" = some refCD ∧ refCD.fromSymbolId ≠ "a" ∧
    mapFind? (gStale.removeReferences "a").references "x" = none := by
  refine ⟨?_, by decide, by decide, by decide⟩
  exact Reachable.step gOne (Op.opAddReference refCD) reachable_gOne

/-- C4 (amended): in every state free of stale adjacency entries,
removeReferences sid deletes exactly the references whose fromSymbolId is sid,
prunes each deleted id from the incoming list of its toSymbolId, and erases
the outgoing entry for sid; references targeting sid from other sources
survive (the surviving table is exactly the original minus the sid-sourced
references). -/
theorem c4_removeReferences_contract (g : ReferenceGraph) (sid : String)
    (hw : WellFormed g) :
    (∀ i r, mapFind? (g.removeReferences sid).references i = some r ↔
      (mapFind? g.references i = some r ∧ r.fromSymbolId ≠ sid)) ∧
    (∀ i r, mapFind? g.references i = some r → r.fromSymbolId = sid →
      i ∉ incomingList (g.removeReferences sid) r.toSymbolId) ∧
    mapFind? (g.removeReferences sid).symbolToReferences sid = none := by
  obtain ⟨hg, hout, hin⟩ := hw
  obtain ⟨A, B, C, D, E, F⟩ := removeReferences_spec g sid hg
  refine ⟨?_, ?_, E⟩
  · intro i r
    constructor
    · intro h
      exact ⟨B i r h, F i r h⟩
    · rintro ⟨h1, h2⟩
      cases hf : mapFind? g.symbolToReferences sid with
      | none =>
          rw [removeReferences_none g sid hf]
          exact h1
      | some refIds =>
          have hnotmem : i ∉ refIds := by
            intro hmem
            have hmem' : i ∈ outgoingList g sid := by simp [outgoingList, hf, hmem]
            exact h2 (hout sid i r hmem' h1)
          obtain ⟨_, _, _, _, _, _, G, _⟩ := fold_rmRefStep_spec refIds g hg
          rw [removeReferences_some g sid refIds hf]
          show mapFind? (refIds.foldl rmRefStep g).references i = some r
          rw [G i hnotmem]
          exact h1
  · intro i r h1 h2
    cases hf : mapFind? g.symbolToReferences sid with
    | none =>
        have hmem := hg.refOut i r h1
        rw [h2] at hmem
        simp [outgoingList, hf] at hmem
    | some refIds =>
        have hmem : i ∈ refIds := by
          have := hg.refOut i r h1
          rw [h2] at this
          simpa [outgoingList, hf] using this
        have hpr := fold_rmRefStep_pruned refIds g hg i hmem r h1
        rw [removeReferences_some g sid refIds hf]
        show i ∉ incomingList
          { refIds.foldl rmRefStep g with
            symbolToReferences :=
              mapErase (refIds.foldl rmRefStep g).symbolToReferences sid } r.toSymbolId
        exact hpr

/-- C4 witness: the contract evaluated on the concrete one-reference state:
the reference out of "a" is gone and the outgoing entry for "a" erased. -/
theorem c4_removeReferences_contract_witness :
    wellFormedB gOne = true ∧
    ¬ mapFind? (gOne.removeReferences "a").references "x" = some refAB ∧
    mapFind? (gOne.removeReferences "a").symbolToReferences "a" = none := by
  have h := c4_removeReferences_contract gOne "a" (wellFormed_of_b gOne (by decide))
  exact ⟨by decide, fun hc => ((h.1 "x" refAB).mp hc).2 rfl, h.2.2⟩

/-- C5: updateFile is definitionally removeFile followed by addFile. -/
theorem c5_updateFile_equivalence (g : ReferenceGraph) (p : String) (f : FileData) :
    g.updateFile p f = (g.removeFile p).addFile f := rfl

/-- C6 counterexample: refAB is added and never removed by removeReferences,
removeFile, updateFile or clear — only a later addReference re-uses its id —
yet it is returned by neither findCallees of its source nor findCallers of its
target. -/
theorem c6_counterexample :
    Reachable gOver ∧
    refAB ∉ gOver.findCallees refAB.fromSymbolId ∧
    refAB ∉ gOver.findCallers refAB.toSymbolId := by
  refine ⟨?_, by decide, by decide⟩
  exact Reachable.step gOne (Op.opAddReference refAC) reachable_gOne

/-- C6 (amended): in any reachable state whose reference table still maps
r.id to r (r was added and neither removed nor overwritten since),
findCallees of r's source contains r and findCallers of r's target contains
r. -/
theorem c6_symmetry (g : ReferenceGraph) (r : Reference) (hg : Reachable g)
    (hr : mapFind? g.references r.id = some r) :
    r ∈ g.findCallees r.fromSymbolId ∧ r ∈ g.findCallers r.toSymbolId := by
  have hG := ginv_of_reachable hg
  constructor
  · rw [mem_findCallees]
    exact ⟨r.id, hG.refOut r.id r hr, hr⟩
  · rw [mem_findCallers]
    exact ⟨r.id, hG.refIn r.id r hr, hr⟩

/-- C6 witness: symmetry evaluated on the concrete one-reference state. -/
theorem c6_symmetry_witness :
    refAB ∈ gOne.findCallees refAB.fromSymbolId ∧
    refAB ∈ gOne.findCallers refAB.toSymbolId :=
  c6_symmetry gOne refAB reachable_gOne (by decide)

/-- C7: used/unused partition — in every reachable state, a symbol stored
under its id is either used or among findUnusedSymbols, never both and never
neither. -/
theorem c7_used_unused_partition (g : ReferenceGraph) (s : Symbol) (hg : Reachable g)
    (hs : mapFind? g.symbols s.id = some s) :
    (g.isSymbolUsed s.id = true ∧ s ∉ g.findUnusedSymbols) ∨
    (g.isSymbolUsed s.id = false ∧ s ∈ g.findUnusedSymbols) := by
  have hG := ginv_of_reachable hg
  cases hused : g.isSymbolUsed s.id with
  | false =>
      right
      refine ⟨rfl, ?_⟩
      rw [mem_findUnusedSymbols]
      exact ⟨s.id, mem_of_mapFind? hs, hused⟩
  | true =>
      left
      refine ⟨rfl, ?_⟩
      rw [mem_findUnusedSymbols]
      rintro ⟨k, hk, hkused⟩
      have hfk : mapFind? g.symbols k = some s := mapFind?_of_mem hG.nodupSymbols hk
      have hik : s.id = k := hG.keySym k s hfk
      rw [← hik, hused] at hkused
      exact Bool.noConfusion hkused

/-- C7 witness: the partition evaluated on the concrete one-symbol state. -/
theorem c7_used_unused_partition_witness :
    (gSym.isSymbolUsed "s1" = true ∧ symW ∉ gSym.findUnusedSymbols) ∨
    (gSym.isSymbolUsed "s1" = false ∧ symW ∈ gSym.findUnusedSymbols) :=
  c7_used_unused_partition gSym symW
    (Reachable.step emptyGraph (Op.opAddSymbol symW) Reachable.empty) (by decide)

/-- C8: negative lookups are answered by sentinels: getSymbol on a missing id
returns the default symbol whose id is the empty string, hasSymbol returns
false, and findCallers/findCallees with no adjacency entry return the empty
list — never an error. -/
theorem c8_sentinel_not_found (g : ReferenceGraph) (i : String) :
    (mapFind? g.symbols i = none →
      g.getSymbol i = ({} : Symbol) ∧ (g.getSymbol i).id = "" ∧ g.hasSymbol i = false) ∧
    (mapFind? g.symbolToCallers i = none → g.findCallers i = []) ∧
    (mapFind? g.symbolToReferences i = none → g.findCallees i = []) := by
  refine ⟨?_, ?_, ?_⟩
  · intro h
    refine ⟨?_, ?_, ?_⟩ <;> simp [ReferenceGraph.getSymbol, ReferenceGraph.hasSymbol, h]
  · intro h
    simp [ReferenceGraph.findCallers, h]
  · intro h
    simp [ReferenceGraph.findCallees, h]

/-- C8 witness: the sentinel answers evaluated on the empty graph at id "z". -/
theorem c8_sentinel_not_found_witness :
    emptyGraph.getSymbol "z" = ({} : Symbol) ∧ (emptyGraph.getSymbol "z").id = "" ∧
    emptyGraph.hasSymbol "z" = false ∧ emptyGraph.findCallers "z" = [] ∧
    emptyGraph.findCallees "z" = [] := by
  obtain ⟨h1, h2, h3⟩ := c8_sentinel_not_found emptyGraph "z"
  obtain ⟨a, b, c⟩ := h1 rfl
  exact ⟨a, b, c, h2 rfl, h3 rfl⟩

/-- C9: getStats().totalSymbols, size() and the length of getAllSymbols() are
all the number of entries of the symbol table. -/
theorem c9_stats_consistency (g : ReferenceGraph) :
    (g.getStats).totalSymbols = g.size ∧ g.size = (g.getAllSymbols).length := by
  refine ⟨rfl, ?_⟩
  simp [ReferenceGraph.size, ReferenceGraph.getAllSymbols]

/-- C10: removeFile on a path for which hasFile is false leaves the entire
state (all five maps and the dirty-file set) unchanged. -/
theorem c10_removeFile_unknown_noop (g : ReferenceGraph) (p : String)
    (h : g.hasFile p = false) : g.removeFile p = g := by
  have hf : mapFind? g.files p = none := by
    cases hx : mapFind? g.files p with
    | none => rfl
    | some fd => simp [ReferenceGraph.hasFile, hx] at h
  exact removeFile_none g p hf

/-- C10 witness: the no-op evaluated on the empty graph. -/
theorem c10_removeFile_unknown_noop_witness :
    emptyGraph.hasFile "p" = false ∧ emptyGraph.removeFile "p" = emptyGraph :=
  ⟨rfl, c10_removeFile_unknown_noop emptyGraph "p" rfl⟩

end Prism
